import Mathlib

/-!
Verification of the ESP32-UWB firmware and of its host-side correlation
engine's specification.

The firmware sources (tag and anchor sketches) emit newline-terminated
ASCII `key=value` records over UDP.  We embed the byte-level output of
those sketches (wire lines are `List Nat` of byte values), the lock-free
64-slot ring buffer that decouples the radio interrupt handlers from the
UDP-emitting main loop, the `newRange` callbacks, and the AES-GCM framing
of the encrypted-tag example.  The host-side Pairer is not part of the
shipped sources, so it is modelled from the specification text.
-/

/-- Bytes of an ASCII string literal, as natural numbers. -/
def bytes (s : String) : List Nat := s.data.map Char.toNat

/-- Worker for `decDigitsB`, structurally recursive on a fuel bound so
that it evaluates inside the kernel. -/
def decDigitsAux : Nat → Nat → List Nat
  | 0, _ => []
  | fuel + 1, n => if n < 10 then [48 + n] else decDigitsAux fuel (n / 10) ++ [48 + n % 10]

/-- Decimal digits (most significant first) of `n`, as ASCII bytes.
This models the `%lu` / `%llu` conversions of `snprintf` on a
nonnegative integer argument. -/
def decDigitsB (n : Nat) : List Nat := decDigitsAux (n + 1) n

theorem decDigitsAux_congr (n : Nat) : ∀ f1 f2 : Nat, n < f1 → n < f2 →
    decDigitsAux f1 n = decDigitsAux f2 n := by
  induction n using Nat.strong_induction_on with
  | _ n ih =>
    intro f1 f2 h1 h2
    cases f1 with
    | zero => omega
    | succ a =>
      cases f2 with
      | zero => omega
      | succ b =>
        simp only [decDigitsAux]
        by_cases h : n < 10
        · simp [h]
        · simp only [if_neg h]
          congr 1
          exact ih (n / 10) (by omega) a b (by omega) (by omega)

/-- Decimal re-reading of a digit-byte list. -/
def parseDec (l : List Nat) : Nat := l.foldl (fun a b => 10 * a + (b - 48)) 0

theorem decDigitsB_ge_ten {n : Nat} (h : ¬ n < 10) :
    decDigitsB n = decDigitsB (n / 10) ++ [48 + n % 10] := by
  have h1 : decDigitsB n = decDigitsAux n (n / 10) ++ [48 + n % 10] := by
    simp [decDigitsB, decDigitsAux, h]
  rw [h1, decDigitsB]
  congr 1
  exact decDigitsAux_congr (n / 10) n (n / 10 + 1) (by omega) (by omega)

theorem decDigitsB_lt_ten {n : Nat} (h : n < 10) : decDigitsB n = [48 + n] := by
  simp [decDigitsB, decDigitsAux, h]

/-- Every byte produced by `decDigitsB` is an ASCII digit. -/
theorem decDigitsB_digits (n : Nat) : ∀ b ∈ decDigitsB n, 48 ≤ b ∧ b ≤ 57 := by
  induction n using Nat.strong_induction_on with
  | _ n ih =>
    by_cases h : n < 10
    · rw [decDigitsB_lt_ten h]
      intro b hb
      simp at hb
      omega
    · rw [decDigitsB_ge_ten h]
      intro b hb
      rcases List.mem_append.mp hb with h1 | h2
      · exact ih (n / 10) (by omega) b h1
      · simp at h2
        have : n % 10 < 10 := Nat.mod_lt _ (by omega)
        omega

theorem parseDec_foldl (n : Nat) :
    ∀ a, (decDigitsB n).foldl (fun a b => 10 * a + (b - 48)) a
      = a * 10 ^ (decDigitsB n).length + n := by
  induction n using Nat.strong_induction_on with
  | _ n ih =>
    intro a
    by_cases h : n < 10
    · rw [decDigitsB_lt_ten h]
      simp [List.foldl]
      omega
    · rw [decDigitsB_ge_ten h]
      rw [List.foldl_append]
      rw [ih (n / 10) (by omega) a]
      simp [List.foldl, List.length_append]
      have hmod : n % 10 < 10 := Nat.mod_lt _ (by omega)
      have hdm : 10 * (n / 10) + n % 10 = n := Nat.div_add_mod n 10
      ring_nf
      omega

/-- `decDigitsB` renders exactly the decimal value: re-parsing recovers `n`. -/
theorem parseDec_decDigitsB (n : Nat) : parseDec (decDigitsB n) = n := by
  have h := parseDec_foldl n 0
  simpa [parseDec] using h

/-- A number below `10 ^ (k + 1)` has at most `k + 1` decimal digits. -/
theorem decDigitsB_length_le : ∀ (k n : Nat), n < 10 ^ (k + 1) →
    (decDigitsB n).length ≤ k + 1 := by
  intro k
  induction k with
  | zero =>
    intro n h
    rw [decDigitsB_lt_ten (by simpa using h)]
    simp
  | succ k ih =>
    intro n h
    by_cases h10 : n < 10
    · rw [decDigitsB_lt_ten h10]
      simp
    · rw [decDigitsB_ge_ten h10]
      rw [List.length_append]
      have hdiv : n / 10 < 10 ^ (k + 1) := by
        rw [Nat.div_lt_iff_lt_mul (by omega)]
        calc n < 10 ^ (k + 2) := h
        _ = 10 ^ (k + 1) * 10 := by ring
      have := ih (n / 10) hdiv
      simp
      omega

/-- Worker for `hexDigitsB`, structurally recursive on a fuel bound. -/
def hexDigitsAux : Nat → Nat → List Nat
  | 0, _ => []
  | fuel + 1, n =>
    if n < 16 then [if n < 10 then 48 + n else 55 + n]
    else hexDigitsAux fuel (n / 16) ++ [if n % 16 < 10 then 48 + n % 16 else 55 + n % 16]

/-- Uppercase hexadecimal digits of `n`, as ASCII bytes: this models
Arduino's `Serial.print(x, HEX)`. -/
def hexDigitsB (n : Nat) : List Nat := hexDigitsAux (n + 1) n

/-- `printf`-style fixed-point rendering with two digits after the point
(the `%.2f` conversion applied to a nonnegative value), on an exact
rational model of the argument. -/
def fmt2core (q : ℚ) : List Nat :=
  decDigitsB ((Int.floor (q * 100 + 1 / 2)).toNat / 100) ++
    [46, 48 + (Int.floor (q * 100 + 1 / 2)).toNat % 100 / 10,
      48 + (Int.floor (q * 100 + 1 / 2)).toNat % 10]

/-- The `%.2f` conversion on an exact rational model of a float argument. -/
def fmt2 (q : ℚ) : List Nat :=
  if q < 0 then 45 :: fmt2core (-q) else fmt2core q

/-!
## The ISR → main-loop ring buffer (tag and anchor sketches)

Both the tag and the anchor sketch declare, identically:

    struct EventRec { char kind; unsigned long long dev_ts; };
    static volatile EventRec q[64];
    static volatile uint8_t q_head = 0, q_tail = 0;

with `isr_push` masking indices by `& 63` and dropping the pushed event
when `(q_head + 1) & 63 == q_tail`, and `pop` returning `false` when
`q_tail == q_head`.  `kind` bytes are the ASCII codes of `'T'` (84) and
`'R'` (82); `dev_ts` is a 64-bit device timestamp.
-/

/-- One queued radio-completion event (`struct EventRec`). -/
structure EventRec where
  kind : Nat
  dev_ts : Nat
  deriving DecidableEq

/-- The queue state: the 64-slot array plus the two `uint8_t` cursors
(static storage, so everything starts zeroed). -/
structure QState where
  buf : Fin 64 → EventRec
  q_head : Nat
  q_tail : Nat

/-- Array indexing after the `& 63` mask. -/
def qidx (n : Nat) : Fin 64 := ⟨n % 64, Nat.mod_lt _ (by omega)⟩

/-- `isr_push`: drop the event when the queue is full, else store it at
`q_head` and advance `q_head`. -/
def isr_push (k ts : Nat) (s : QState) : QState :=
  if (s.q_head + 1) % 64 = s.q_tail then s
  else ⟨Function.update s.buf (qidx s.q_head) ⟨k, ts⟩, (s.q_head + 1) % 64, s.q_tail⟩

/-- `pop`: return `false` (modelled as `none`) on an empty queue, else
read the slot at `q_tail` and advance `q_tail`. -/
def pop (s : QState) : Option EventRec × QState :=
  if s.q_tail = s.q_head then (none, s)
  else (some (s.buf (qidx s.q_tail)), ⟨s.buf, s.q_head, (s.q_tail + 1) % 64⟩)

/-- The zero-initialised queue. -/
def ring0 : QState := ⟨fun _ => ⟨0, 0⟩, 0, 0⟩

/-- Number of pending (pushed, not yet popped) events. -/
def rcount (s : QState) : Nat := (s.q_head + 64 - s.q_tail) % 64

/-- The pending events in FIFO order, read from `q_tail` to `q_head`. -/
def absQ (s : QState) : List EventRec :=
  (List.range (rcount s)).map fun i => s.buf (qidx (s.q_tail + i))

/-- One interleaving step of the single producer and single consumer. -/
inductive QOp where
  | push : Nat → Nat → QOp
  | pop : QOp
  deriving DecidableEq

/-- Run one operation on the concrete ring, collecting `pop` results. -/
def stepC (p : QState × List (Option EventRec)) (op : QOp) : QState × List (Option EventRec) :=
  match op with
  | QOp.push k ts => (isr_push k ts p.1, p.2)
  | QOp.pop => ((pop p.1).2, p.2 ++ [(pop p.1).1])

/-- Run a whole interleaving from the zero-initialised ring. -/
def runC (ops : List QOp) : QState × List (Option EventRec) := ops.foldl stepC (ring0, [])

/-- Abstract bounded FIFO queue: appending push that drops when 63
entries are pending (one ring slot is always left unused). -/
def apush (r : EventRec) (q : List EventRec) : List EventRec :=
  if q.length = 63 then q else q ++ [r]

/-- Abstract FIFO pop. -/
def apop : List EventRec → Option EventRec × List EventRec
  | [] => (none, [])
  | x :: xs => (some x, xs)

/-- Run one operation on the abstract queue, collecting `pop` results. -/
def stepA (p : List EventRec × List (Option EventRec)) (op : QOp) :
    List EventRec × List (Option EventRec) :=
  match op with
  | QOp.push k ts => (apush ⟨k, ts⟩ p.1, p.2)
  | QOp.pop => ((apop p.1).2, p.2 ++ [(apop p.1).1])

/-- Run a whole interleaving on the abstract queue. -/
def runA (ops : List QOp) : List EventRec × List (Option EventRec) :=
  ops.foldl stepA ([], [])

theorem absQ_length (s : QState) : (absQ s).length = rcount s := by
  simp [absQ]

theorem isr_push_q_tail (k ts : Nat) (s : QState) :
    (isr_push k ts s).q_tail = s.q_tail := by
  rw [isr_push]
  split <;> rfl

/-- A push on a non-full ring appends the record at the FIFO tail and
changes nothing else observable. -/
theorem absQ_push (k ts : Nat) (s : QState) (hh : s.q_head < 64) (ht : s.q_tail < 64)
    (hne : (s.q_head + 1) % 64 ≠ s.q_tail) :
    absQ (isr_push k ts s) = absQ s ++ [⟨k, ts⟩] := by
  have hc : rcount (isr_push k ts s) = rcount s + 1 := by
    simp only [isr_push, if_neg hne, rcount]
    omega
  have hcb : rcount s < 63 := by
    simp only [rcount]
    omega
  rw [absQ, hc, List.range_succ, List.map_append]
  simp only [isr_push, if_neg hne]
  congr 1
  · rw [absQ]
    apply List.map_congr_left
    intro i hi
    have hi' : i < rcount s := List.mem_range.mp hi
    have hir : i < (s.q_head + 64 - s.q_tail) % 64 := hi'
    apply Function.update_noteq
    apply Fin.ne_of_val_ne
    simp only [qidx]
    omega
  · simp only [List.map_cons, List.map_nil]
    have hq : qidx (s.q_tail + rcount s) = qidx s.q_head := by
      apply Fin.ext
      simp only [qidx, rcount]
      omega
    rw [hq, Function.update_same]

/-- A pop on a nonempty ring returns the FIFO head and leaves the rest. -/
theorem pop_cons (s : QState) (hh : s.q_head < 64) (ht : s.q_tail < 64)
    (hne : s.q_tail ≠ s.q_head) :
    (pop s).1 = some (s.buf (qidx s.q_tail)) ∧
    absQ s = s.buf (qidx s.q_tail) :: absQ (pop s).2 := by
  refine ⟨by simp [pop, hne], ?_⟩
  simp only [pop, if_neg hne]
  have hc0 : rcount s ≠ 0 := by
    simp only [rcount]
    omega
  have hc2 : rcount ⟨s.buf, s.q_head, (s.q_tail + 1) % 64⟩ = rcount s - 1 := by
    simp only [rcount]
    omega
  rw [absQ, absQ, hc2]
  obtain ⟨c, hcev⟩ : ∃ c, rcount s = c + 1 := ⟨rcount s - 1, by omega⟩
  have hcb : c < 63 := by
    have : rcount s < 64 := Nat.mod_lt _ (by omega)
    omega
  rw [hcev]
  simp only [Nat.add_sub_cancel, List.range_succ_eq_map, List.map_cons, List.map_map]
  congr 1
  apply List.map_congr_left
  intro i _
  simp only [Function.comp]
  congr 1
  apply Fin.ext
  simp only [qidx]
  omega

/-- Simulation: from related states, the ring buffer and the bounded
FIFO queue run every interleaving to related states with identical
observable pop results. -/
theorem simQ (ops : List QOp) : ∀ (s : QState) (out : List (Option EventRec)),
    s.q_head < 64 → s.q_tail < 64 →
    (ops.foldl stepC (s, out)).1.q_head < 64 ∧
    (ops.foldl stepC (s, out)).1.q_tail < 64 ∧
    absQ (ops.foldl stepC (s, out)).1 = (ops.foldl stepA (absQ s, out)).1 ∧
    (ops.foldl stepC (s, out)).2 = (ops.foldl stepA (absQ s, out)).2 := by
  induction ops with
  | nil =>
    intro s out hh ht
    exact ⟨hh, ht, rfl, rfl⟩
  | cons op rest ih =>
    intro s out hh ht
    cases op with
    | push k ts =>
      simp only [List.foldl_cons, stepC, stepA]
      have h1 : (isr_push k ts s).q_head < 64 := by
        rw [isr_push]
        split
        · exact hh
        · exact Nat.mod_lt _ (by omega)
      have h2 : (isr_push k ts s).q_tail < 64 := by
        rw [isr_push_q_tail]
        exact ht
      have habs : absQ (isr_push k ts s) = apush ⟨k, ts⟩ (absQ s) := by
        by_cases hf : (s.q_head + 1) % 64 = s.q_tail
        · have hlen : (absQ s).length = 63 := by
            rw [absQ_length]
            simp only [rcount]
            omega
          rw [isr_push, if_pos hf, apush, if_pos hlen]
        · have hlen : (absQ s).length ≠ 63 := by
            rw [absQ_length]
            simp only [rcount]
            omega
          rw [absQ_push k ts s hh ht hf, apush, if_neg hlen]
      rw [← habs]
      exact ih (isr_push k ts s) out h1 h2
    | pop =>
      simp only [List.foldl_cons, stepC, stepA]
      by_cases he : s.q_tail = s.q_head
      · have habs0 : absQ s = [] := by
          have : rcount s = 0 := by
            simp only [rcount, he]
            omega
          simp [absQ, this]
        rw [habs0]
        simp only [pop, if_pos he, apop]
        have := ih s (out ++ [none]) hh ht
        rw [habs0] at this
        exact this
      · obtain ⟨hfst, hcons⟩ := pop_cons s hh ht he
        rw [hcons, hfst]
        simp only [apop]
        have h1 : (pop s).2.q_head < 64 := by
          simp only [pop, if_neg he]
          exact hh
        have h2 : (pop s).2.q_tail < 64 := by
          simp only [pop, if_neg he]
          exact Nat.mod_lt _ (by omega)
        exact ih (pop s).2 (out ++ [some (s.buf (qidx s.q_tail))]) h1 h2

/-- C1: the ISR→loop handoff is a fixed-capacity 64-slot SPSC ring buffer
with a drop-newest-on-full policy: along every interleaving of `isr_push`
and `pop` from the empty queue the number of pending events never exceeds
the 64-slot capacity, and an `isr_push` on a full queue (the code's
full test `(q_head + 1) & 63 == q_tail`) returns with the queue state —
buffer contents, head and tail — completely unchanged, so the new event
is dropped and no queued event is overwritten. -/
theorem ring_queue_capacity_and_drop (ops ops2 : List QOp) (k ts : Nat)
    (hFull : ((runC ops2).1.q_head + 1) % 64 = (runC ops2).1.q_tail) :
    (absQ (runC ops).1).length ≤ 64 ∧
    isr_push k ts (runC ops2).1 = (runC ops2).1 := by
  constructor
  · rw [absQ_length]
    have : rcount (runC ops).1 < 64 := Nat.mod_lt _ (by omega)
    omega
  · rw [isr_push, if_pos hFull]

set_option maxRecDepth 4000 in
/-- Witness for C1: after 63 pushes the queue is full, and a further
`isr_push` leaves it unchanged. -/
theorem ring_queue_capacity_and_drop_w :
    (absQ (runC (List.replicate 63 (QOp.push 84 1))).1).length ≤ 64 ∧
    isr_push 82 7 (runC (List.replicate 63 (QOp.push 84 1))).1
      = (runC (List.replicate 63 (QOp.push 84 1))).1 :=
  ring_queue_capacity_and_drop (List.replicate 63 (QOp.push 84 1))
    (List.replicate 63 (QOp.push 84 1)) 82 7 (by decide)

/-- C8: the head/tail ring buffer is observationally equivalent to a
bounded FIFO queue: every interleaving of pushes and pops from the empty
queue yields, on the concrete ring and on the abstract queue, the same
pending contents and the very same sequence of `pop` results — records
come out in push order with `kind` and `dev_ts` unchanged — and `pop`
reports an empty queue (`false`, modelled `none`) exactly when no event
is pending. -/
theorem ring_buffer_fifo_refinement (ops : List QOp) :
    absQ (runC ops).1 = (runA ops).1 ∧
    (runC ops).2 = (runA ops).2 ∧
    ((pop (runC ops).1).1 = none ↔ absQ (runC ops).1 = []) := by
  have h := simQ ops ring0 [] (by decide) (by decide)
  have habs0 : absQ ring0 = [] := rfl
  obtain ⟨hh0, ht0, habs0', hout0⟩ := h
  have hh : (runC ops).1.q_head < 64 := hh0
  have ht : (runC ops).1.q_tail < 64 := ht0
  have habs : absQ (runC ops).1 = (runA ops).1 := by
    rw [habs0] at habs0'
    exact habs0'
  have hout : (runC ops).2 = (runA ops).2 := by
    rw [habs0] at hout0
    exact hout0
  refine ⟨habs, hout, ?_, ?_⟩
  · intro hp
    by_cases he : (runC ops).1.q_tail = (runC ops).1.q_head
    · have h0 : rcount (runC ops).1 = 0 := by
        simp only [rcount, he]
        omega
      simp [absQ, h0]
    · obtain ⟨hfst, _⟩ := pop_cons _ hh ht he
      rw [hfst] at hp
      simp at hp
  · intro ha
    have hl : rcount (runC ops).1 = 0 := by
      have hlen := absQ_length (runC ops).1
      rw [ha] at hlen
      simpa using hlen.symm
    have he : (runC ops).1.q_tail = (runC ops).1.q_head := by
      simp only [rcount] at hl
      omega
    simp [pop, he]

/-!
## Wire records emitted by `loop()`

The drain loop formats each popped `EventRec` with

    snprintf(buf, 128, "role=TAG evt=%s dev_ts=%llu\n",
             (r.kind=='T' ? "TX" : "RX"), r.dev_ts);

(`ANCHOR` in place of `TAG` on the anchor board), and the heartbeat with

    snprintf(hb, 64, "role=TAG evt=HEARTBEAT host_ts=%lu\n", now/1000);

where `now = millis()` is a 32-bit unsigned millisecond uptime.  Lines
fit their buffers (proved below for the drain line), so `snprintf`
truncation does not occur and is not modelled.
-/

/-- The TX/RX event line of the tag sketch's drain loop. -/
def drainLineTag (r : EventRec) : List Nat :=
  bytes "role=TAG evt=" ++ (if r.kind = 84 then bytes "TX" else bytes "RX") ++
    bytes " dev_ts=" ++ decDigitsB r.dev_ts ++ [10]

/-- The TX/RX event line of the anchor sketch's drain loop. -/
def drainLineAnchor (r : EventRec) : List Nat :=
  bytes "role=ANCHOR evt=" ++ (if r.kind = 84 then bytes "TX" else bytes "RX") ++
    bytes " dev_ts=" ++ decDigitsB r.dev_ts ++ [10]

theorem forall_mem_line (B1 K B2 D : List Nat) (p : Nat → Prop)
    (h1 : ∀ b ∈ B1, p b) (h2 : ∀ b ∈ K, p b) (h3 : ∀ b ∈ B2, p b)
    (h4 : ∀ b ∈ D, p b) :
    ∀ b ∈ B1 ++ (K ++ (B2 ++ D)), p b := by
  intro b hb
  simp only [List.mem_append, or_assoc] at hb
  rcases hb with hb | hb | hb | hb
  exacts [h1 b hb, h2 b hb, h3 b hb, h4 b hb]

theorem decDigitsB_le_20 {n : Nat} (h : n < 2 ^ 64) : (decDigitsB n).length ≤ 20 := by
  have h20 : n < 10 ^ 20 := lt_of_lt_of_le h (by norm_num)
  exact decDigitsB_length_le 19 n h20

/-- C2: every TX/RX wire record of the drain loop is one
newline-terminated ASCII line of the exact form
`role=<ROLE> evt=<KIND> dev_ts=<N>`: `<ROLE>` is `TAG` on the tag board
and `ANCHOR` on the anchor board, `<KIND>` is `TX` exactly when the
dequeued record's `kind` byte is `'T'` (84) and `RX` otherwise, and
`<N>` is the decimal rendering of the queued device timestamp
(re-parsing it recovers the value).  The line holds exactly one newline,
at its end, every byte is ASCII, and the line fits the 128-byte
`snprintf` buffer. -/
theorem drain_line_wire_format (r : EventRec) (hts : r.dev_ts < 2 ^ 64) :
    drainLineTag r = bytes "role=TAG evt=" ++
      (if r.kind = 84 then bytes "TX" else bytes "RX") ++
      bytes " dev_ts=" ++ decDigitsB r.dev_ts ++ [10] ∧
    drainLineAnchor r = bytes "role=ANCHOR evt=" ++
      (if r.kind = 84 then bytes "TX" else bytes "RX") ++
      bytes " dev_ts=" ++ decDigitsB r.dev_ts ++ [10] ∧
    parseDec (decDigitsB r.dev_ts) = r.dev_ts ∧
    (∃ body, drainLineTag r = body ++ [10] ∧ 10 ∉ body) ∧
    (∃ body, drainLineAnchor r = body ++ [10] ∧ 10 ∉ body) ∧
    (∀ b ∈ drainLineTag r, b < 128) ∧
    (∀ b ∈ drainLineAnchor r, b < 128) ∧
    (drainLineTag r).length < 128 ∧ (drainLineAnchor r).length < 128 := by
  have hkind : ∀ p : Nat → Prop,
      (∀ b ∈ bytes "TX", p b) → (∀ b ∈ bytes "RX", p b) →
      ∀ b ∈ (if r.kind = 84 then bytes "TX" else bytes "RX"), p b := by
    intro p hT hR
    split
    · exact hT
    · exact hR
  have hdig10 : ∀ b ∈ decDigitsB r.dev_ts, b ≠ 10 := by
    intro b hb
    have := decDigitsB_digits _ b hb
    omega
  have hdig128 : ∀ b ∈ decDigitsB r.dev_ts ++ [10], b < 128 := by
    intro b hb
    rcases List.mem_append.mp hb with hb | hb
    · have := decDigitsB_digits _ b hb
      omega
    · simp at hb
      omega
  have hlen := decDigitsB_le_20 hts
  have hklen : (if r.kind = 84 then bytes "TX" else bytes "RX").length = 2 := by
    split <;> decide
  have l1 : (bytes "role=TAG evt=").length = 13 := by decide
  have l2 : (bytes " dev_ts=").length = 8 := by decide
  have l3 : (bytes "role=ANCHOR evt=").length = 16 := by decide
  refine ⟨rfl, rfl, parseDec_decDigitsB _, ?_, ?_, ?_, ?_, ?_, ?_⟩
  · refine ⟨bytes "role=TAG evt=" ++
      ((if r.kind = 84 then bytes "TX" else bytes "RX") ++
        (bytes " dev_ts=" ++ decDigitsB r.dev_ts)), by simp [drainLineTag], ?_⟩
    intro hmem
    exact forall_mem_line _ _ _ _ (fun b => b ≠ 10) (by decide)
      (hkind _ (by decide) (by decide)) (by decide) hdig10 10 hmem rfl
  · refine ⟨bytes "role=ANCHOR evt=" ++
      ((if r.kind = 84 then bytes "TX" else bytes "RX") ++
        (bytes " dev_ts=" ++ decDigitsB r.dev_ts)), by simp [drainLineAnchor], ?_⟩
    intro hmem
    exact forall_mem_line _ _ _ _ (fun b => b ≠ 10) (by decide)
      (hkind _ (by decide) (by decide)) (by decide) hdig10 10 hmem rfl
  · intro b hb
    simp only [drainLineTag, List.append_assoc] at hb
    exact forall_mem_line (bytes "role=TAG evt=")
      (if r.kind = 84 then bytes "TX" else bytes "RX") (bytes " dev_ts=")
      (decDigitsB r.dev_ts ++ [10]) (fun b => b < 128) (by decide)
      (hkind _ (by decide) (by decide)) (by decide) hdig128 b hb
  · intro b hb
    simp only [drainLineAnchor, List.append_assoc] at hb
    exact forall_mem_line (bytes "role=ANCHOR evt=")
      (if r.kind = 84 then bytes "TX" else bytes "RX") (bytes " dev_ts=")
      (decDigitsB r.dev_ts ++ [10]) (fun b => b < 128) (by decide)
      (hkind _ (by decide) (by decide)) (by decide) hdig128 b hb
  · simp only [drainLineTag, List.length_append, hklen, l1, l2, List.length_singleton]
    omega
  · simp only [drainLineAnchor, List.length_append, hklen, l3, l2, List.length_singleton]
    omega

/-- A concrete dequeued record: a TX completion with `dev_ts = 123`. -/
def recT : EventRec := ⟨84, 123⟩

/-- Witness for C2 at the concrete record `recT`. -/
theorem drain_line_wire_format_w :
    drainLineTag recT = bytes "role=TAG evt=" ++
      (if recT.kind = 84 then bytes "TX" else bytes "RX") ++
      bytes " dev_ts=" ++ decDigitsB recT.dev_ts ++ [10] ∧
    drainLineAnchor recT = bytes "role=ANCHOR evt=" ++
      (if recT.kind = 84 then bytes "TX" else bytes "RX") ++
      bytes " dev_ts=" ++ decDigitsB recT.dev_ts ++ [10] ∧
    parseDec (decDigitsB recT.dev_ts) = recT.dev_ts ∧
    (∃ body, drainLineTag recT = body ++ [10] ∧ 10 ∉ body) ∧
    (∃ body, drainLineAnchor recT = body ++ [10] ∧ 10 ∉ body) ∧
    (∀ b ∈ drainLineTag recT, b < 128) ∧
    (∀ b ∈ drainLineAnchor recT, b < 128) ∧
    (drainLineTag recT).length < 128 ∧ (drainLineAnchor recT).length < 128 :=
  drain_line_wire_format recT (by norm_num [recT])

/-- `HEARTBEAT_MS` from both sketches. -/
def HEARTBEAT_MS : Nat := 2000

/-- The heartbeat line of the tag sketch:
`snprintf(hb, 64, "role=TAG evt=HEARTBEAT host_ts=%lu\n", now/1000)`. -/
def hbLineTag (now : Nat) : List Nat :=
  bytes "role=TAG evt=HEARTBEAT host_ts=" ++ decDigitsB (now / 1000) ++ [10]

/-- The heartbeat line of the anchor sketch. -/
def hbLineAnchor (now : Nat) : List Nat :=
  bytes "role=ANCHOR evt=HEARTBEAT host_ts=" ++ decDigitsB (now / 1000) ++ [10]

/-- The heartbeat decision of the tag `loop()`: with `now = millis()`
and `last_hb` both 32-bit, emit when `now - last_hb >= HEARTBEAT_MS`
(unsigned wraparound subtraction) and update `last_hb`. -/
def hbStepTag (last_hb now : Nat) : Option (List Nat) × Nat :=
  if HEARTBEAT_MS ≤ (now + 2 ^ 32 - last_hb) % 2 ^ 32 then (some (hbLineTag now), now)
  else (none, last_hb)

/-- The heartbeat decision of the anchor `loop()`. -/
def hbStepAnchor (last_hb now : Nat) : Option (List Nat) × Nat :=
  if HEARTBEAT_MS ≤ (now + 2 ^ 32 - last_hb) % 2 ^ 32 then (some (hbLineAnchor now), now)
  else (none, last_hb)

/-- C3 counterexample: the heartbeat fired at uptime `millis() = 2000`
(a legitimate emission: `2000 - 0 ≥ HEARTBEAT_MS`) carries
`host_ts=2`, not `host_ts=0` — the emitted line differs from
`role=TAG evt=HEARTBEAT host_ts=0`. -/
theorem heartbeat_host_ts_zero_cx :
    (hbStepTag 0 2000).1 = some (hbLineTag 2000) ∧
    hbLineTag 2000 ≠ bytes "role=TAG evt=HEARTBEAT host_ts=0" ++ [10] := by
  constructor
  · decide
  · decide

/-- C3 (amended): every heartbeat record emitted by the tag or anchor
main loop is the line `role=<ROLE> evt=HEARTBEAT host_ts=<N>` where
`<N>` is the decimal rendering of the board's uptime in whole seconds,
`millis() / 1000` — so `host_ts` is `0` only during the first second of
uptime, not on every emission. -/
theorem heartbeat_line_uptime (lt nt la na : Nat) (lT lA : List Nat)
    (hT : (hbStepTag lt nt).1 = some lT) (hA : (hbStepAnchor la na).1 = some lA) :
    lT = bytes "role=TAG evt=HEARTBEAT host_ts=" ++ decDigitsB (nt / 1000) ++ [10] ∧
    lA = bytes "role=ANCHOR evt=HEARTBEAT host_ts=" ++ decDigitsB (na / 1000) ++ [10] ∧
    parseDec (decDigitsB (nt / 1000)) = nt / 1000 ∧
    parseDec (decDigitsB (na / 1000)) = na / 1000 := by
  refine ⟨?_, ?_, parseDec_decDigitsB _, parseDec_decDigitsB _⟩
  · rw [hbStepTag] at hT
    split at hT
    · simp only [Option.some.injEq] at hT
      rw [← hT, hbLineTag]
    · simp at hT
  · rw [hbStepAnchor] at hA
    split at hA
    · simp only [Option.some.injEq] at hA
      rw [← hA, hbLineAnchor]
    · simp at hA

/-- Witness for the amended C3 at concrete uptimes 2000 ms and 5000 ms. -/
theorem heartbeat_line_uptime_w :
    hbLineTag 2000 = bytes "role=TAG evt=HEARTBEAT host_ts=" ++
      decDigitsB (2000 / 1000) ++ [10] ∧
    hbLineAnchor 5000 = bytes "role=ANCHOR evt=HEARTBEAT host_ts=" ++
      decDigitsB (5000 / 1000) ++ [10] ∧
    parseDec (decDigitsB (2000 / 1000)) = 2000 / 1000 ∧
    parseDec (decDigitsB (5000 / 1000)) = 5000 / 1000 :=
  heartbeat_line_uptime 0 2000 0 5000 (hbLineTag 2000) (hbLineAnchor 5000)
    (by decide) (by decide)

/-!
## The `newRange` callbacks

All three UDP sketches guard `newRange` with
`DW1000Device* dev = DW1000Ranging.getDistantDevice(); if (!dev) return;`
and then print a serial summary, send `role=<ROLE> evt=RANGE host_ts=<sec>`
(UDP sketches only) to the event port, and send `Range: %.2f m` to the
distance port — on the anchor only under `#if ENABLE_UDP_RANGE`, which
that sketch sets to 0.  A callback invocation is modelled as the list of
(channel, byte string) messages it emits; floats are modelled as exact
rationals.
-/

/-- Output channels used by `newRange`. -/
inductive Chan where
  | serial : Chan
  | evtPort : Chan
  | distPort : Chan
  deriving DecidableEq

/-- The distant device observed by a completed measurement. -/
structure Device where
  shortAddress : Nat
  range : ℚ
  rxPower : ℚ

/-- The serial summary `from: <addr> Range: <m> m RX power: <dBm>`
printed by `newRange` (`println` ends with CR LF). -/
def serialFromLine (d : Device) : List Nat :=
  bytes "from: " ++ hexDigitsB d.shortAddress ++ bytes "\t Range: " ++
    fmt2 d.range ++ bytes " m\t RX power: " ++ fmt2 d.rxPower ++
    bytes " dBm" ++ [13, 10]

/-- `ENABLE_UDP_RANGE` in the tag sketch (`#define ENABLE_UDP_RANGE 1`). -/
def ENABLE_UDP_RANGE_TAG : Bool := true

/-- `ENABLE_UDP_RANGE` in the anchor sketch (`#define ENABLE_UDP_RANGE 0`). -/
def ENABLE_UDP_RANGE_ANCHOR : Bool := false

/-- The tag's RANGE event line, `sec = millis() / 1000`. -/
def tagRangeEvtLine (now : Nat) : List Nat :=
  bytes "role=TAG evt=RANGE host_ts=" ++ decDigitsB (now / 1000) ++ [10]

/-- The anchor's RANGE event line. -/
def anchorRangeEvtLine (now : Nat) : List Nat :=
  bytes "role=ANCHOR evt=RANGE host_ts=" ++ decDigitsB (now / 1000) ++ [10]

/-- The distance-only message `Range: %.2f m` with trailing newline. -/
def rangeMsg (m : ℚ) : List Nat := bytes "Range: " ++ fmt2 m ++ bytes " m" ++ [10]

/-- `newRange` of the UDP tag sketch. -/
def newRangeTag (dev : Option Device) (now : Nat) : List (Chan × List Nat) :=
  match dev with
  | none => []
  | some d =>
    [(Chan.serial, serialFromLine d), (Chan.evtPort, tagRangeEvtLine now)] ++
      (if ENABLE_UDP_RANGE_TAG then [(Chan.distPort, rangeMsg d.range)] else [])

/-- `newRange` of the UDP anchor sketch. -/
def newRangeAnchor (dev : Option Device) (now : Nat) : List (Chan × List Nat) :=
  match dev with
  | none => []
  | some d =>
    [(Chan.serial, serialFromLine d), (Chan.evtPort, anchorRangeEvtLine now)] ++
      (if ENABLE_UDP_RANGE_ANCHOR then [(Chan.distPort, rangeMsg d.range)] else [])

/-- `newRange` of the plotting-only tag sketch (no event channel). -/
def newRangeTagPlot (dev : Option Device) : List (Chan × List Nat) :=
  match dev with
  | none => []
  | some d => [(Chan.serial, serialFromLine d), (Chan.distPort, rangeMsg d.range)]

/-- C6: whenever a measurement completes with a known distant device,
`newRange` emits exactly one RANGE record on the event port, of the
form `role=<ROLE> evt=RANGE host_ts=<N>` with `<N>` the decimal
rendering of the whole-second uptime `millis() / 1000`, a
uint64-representable second count. -/
theorem new_range_event_record (d : Device) (now : Nat) (h32 : now < 2 ^ 32) :
    (newRangeTag (some d) now).filter (fun m => m.1 = Chan.evtPort) =
      [(Chan.evtPort, tagRangeEvtLine now)] ∧
    (newRangeAnchor (some d) now).filter (fun m => m.1 = Chan.evtPort) =
      [(Chan.evtPort, anchorRangeEvtLine now)] ∧
    tagRangeEvtLine now =
      bytes "role=TAG evt=RANGE host_ts=" ++ decDigitsB (now / 1000) ++ [10] ∧
    anchorRangeEvtLine now =
      bytes "role=ANCHOR evt=RANGE host_ts=" ++ decDigitsB (now / 1000) ++ [10] ∧
    parseDec (decDigitsB (now / 1000)) = now / 1000 ∧
    now / 1000 < 2 ^ 64 := by
  refine ⟨?_, ?_, rfl, rfl, parseDec_decDigitsB _, ?_⟩
  · simp [newRangeTag, ENABLE_UDP_RANGE_TAG, List.filter]
  · simp [newRangeAnchor, ENABLE_UDP_RANGE_ANCHOR, List.filter]
  · have h1 : now / 1000 ≤ now := Nat.div_le_self _ _
    have h2 : (2 : Nat) ^ 32 < 2 ^ 64 := by norm_num
    exact lt_of_le_of_lt h1 (lt_trans h32 h2)

/-- A concrete distant device for the witnesses. -/
def dev0 : Device := ⟨4660, 2, 3⟩

/-- Witness for C6 at a concrete device and uptime 5000 ms. -/
theorem new_range_event_record_w :
    (newRangeTag (some dev0) 5000).filter (fun m => m.1 = Chan.evtPort) =
      [(Chan.evtPort, tagRangeEvtLine 5000)] ∧
    (newRangeAnchor (some dev0) 5000).filter (fun m => m.1 = Chan.evtPort) =
      [(Chan.evtPort, anchorRangeEvtLine 5000)] ∧
    tagRangeEvtLine 5000 =
      bytes "role=TAG evt=RANGE host_ts=" ++ decDigitsB (5000 / 1000) ++ [10] ∧
    anchorRangeEvtLine 5000 =
      bytes "role=ANCHOR evt=RANGE host_ts=" ++ decDigitsB (5000 / 1000) ++ [10] ∧
    parseDec (decDigitsB (5000 / 1000)) = 5000 / 1000 ∧
    5000 / 1000 < 2 ^ 64 :=
  new_range_event_record dev0 5000 (by decide)

/-- C10: when `getDistantDevice()` returns a null pointer, all three
`newRange` callbacks return before touching the device: no UDP packet,
no serial output, no state change — they emit nothing at all, so the
null pointer is never dereferenced. -/
theorem new_range_null_guard (now : Nat) :
    newRangeTag none now = [] ∧ newRangeAnchor none now = [] ∧
    newRangeTagPlot none = [] :=
  ⟨rfl, rfl, rfl⟩

theorem fmt2core_shape (q : ℚ) :
    ∃ ip a b, fmt2core q = ip ++ [46, a, b] ∧
      (∀ x ∈ ip, 48 ≤ x ∧ x ≤ 57) ∧ 48 ≤ a ∧ a ≤ 57 ∧ 48 ≤ b ∧ b ≤ 57 := by
  refine ⟨decDigitsB ((Int.floor (q * 100 + 1 / 2)).toNat / 100),
    48 + (Int.floor (q * 100 + 1 / 2)).toNat % 100 / 10,
    48 + (Int.floor (q * 100 + 1 / 2)).toNat % 10, rfl,
    decDigitsB_digits _, ?_, ?_, ?_, ?_⟩ <;> omega

/-- C7: on every completed measurement with a known device, the
distance-only message is the single newline-terminated line
`Range: <d> m` with the distance rendered to exactly two decimal places
(optional sign, decimal digits, a point, two decimal digits); the
plotting tag and the UDP tag send it on the distance port, while on the
anchor this send happens only under `ENABLE_UDP_RANGE`, which the
anchor sketch disables — so the anchor sends nothing on that port. -/
theorem distance_line_two_decimals (d : Device) (now : Nat) :
    (newRangeTagPlot (some d)).filter (fun m => m.1 = Chan.distPort) =
      [(Chan.distPort, rangeMsg d.range)] ∧
    (newRangeTag (some d) now).filter (fun m => m.1 = Chan.distPort) =
      [(Chan.distPort, rangeMsg d.range)] ∧
    (newRangeAnchor (some d) now).filter (fun m => m.1 = Chan.distPort) =
      (if ENABLE_UDP_RANGE_ANCHOR then [(Chan.distPort, rangeMsg d.range)] else []) ∧
    ENABLE_UDP_RANGE_ANCHOR = false ∧
    (∃ sgn ip a b,
      rangeMsg d.range = bytes "Range: " ++ (sgn ++ (ip ++ [46, a, b])) ++
        bytes " m" ++ [10] ∧
      (sgn = [] ∨ sgn = [45]) ∧
      (∀ x ∈ ip, 48 ≤ x ∧ x ≤ 57) ∧ 48 ≤ a ∧ a ≤ 57 ∧ 48 ≤ b ∧ b ≤ 57) := by
  refine ⟨?_, ?_, ?_, rfl, ?_⟩
  · simp [newRangeTagPlot, List.filter]
  · simp [newRangeTag, ENABLE_UDP_RANGE_TAG, List.filter]
  · simp [newRangeAnchor, ENABLE_UDP_RANGE_ANCHOR, List.filter]
  · by_cases hq : d.range < 0
    · obtain ⟨ip, a, b, hcore, hip, ha1, ha2, hb1, hb2⟩ := fmt2core_shape (-d.range)
      refine ⟨[45], ip, a, b, ?_, Or.inr rfl, hip, ha1, ha2, hb1, hb2⟩
      simp [rangeMsg, fmt2, hq, hcore]
    · obtain ⟨ip, a, b, hcore, hip, ha1, ha2, hb1, hb2⟩ := fmt2core_shape d.range
      refine ⟨[], ip, a, b, ?_, Or.inl rfl, hip, ha1, ha2, hb1, hb2⟩
      simp [rangeMsg, fmt2, hq, hcore]

/-!
## The host-side Pairer

The correlation engine is not among the shipped sources (the repository
contains the firmware and points at external Python visualisation
scripts), so the Pairer below is modelled from the specification, §4.3:
a per-role pending set of TX events; on RX arrival the opposite role's
pending set is scanned for candidates within the horizon, the candidate
of smallest latency wins, ties broken by earliest enqueue order, and
exactly the winner is removed.  Host timestamps are carried in integer
milliseconds.
-/

/-- The two ranging roles. -/
inductive Role where
  | TAG : Role
  | ANCHOR : Role
  deriving DecidableEq

/-- Event kinds of the wire protocol. -/
inductive EKind where
  | TX : EKind
  | RX : EKind
  | RANGE : EKind
  | HEARTBEAT : EKind
  deriving DecidableEq

/-- Modelled from the spec: an ingested `Event` as the Pairer sees it
(role, kind, authoritative host timestamp in milliseconds). -/
structure InEvent where
  role : Role
  kind : EKind
  host_ts : Int
  deriving DecidableEq

/-- Modelled from the spec: a `PendingTX` entry — role, host timestamp,
ingestion sequence; its expiry is `host_ts + horizon`. -/
structure PendingTX where
  role : Role
  host_ts : Int
  seq : Nat
  deriving DecidableEq

/-- Modelled from the spec: a `PairedLink` — the matched TX entry, the
RX side, and `latency = rx.host_timestamp - tx.host_timestamp`. -/
structure PairedLink where
  tx : PendingTX
  rx_role : Role
  rx_ts : Int
  latency : Int
  deriving DecidableEq

/-- Modelled from the spec: the Pairer's mutable state. -/
structure PairerState where
  pending : List PendingTX
  links : List PairedLink
  next_seq : Nat
  unpaired_tx : Nat
  unmatched_rx : Nat
  deriving DecidableEq

/-- Modelled from the spec: a pending TX qualifies for an RX at time
`rxts` of role `r` when it has the opposite role and
`0 ≤ rxts - tx.host_ts ≤ horizon`. -/
def qualifies (hz rxts : Int) (r : Role) (p : PendingTX) : Bool :=
  decide (p.role ≠ r) && decide (0 ≤ rxts - p.host_ts) && decide (rxts - p.host_ts ≤ hz)

/-- Modelled from the spec: select, among candidates listed in enqueue
order, the one of smallest latency, keeping the earlier entry on ties. -/
def pickMin (t : Int) : List PendingTX → Option PendingTX
  | [] => none
  | c :: cs =>
    match pickMin t cs with
    | none => some c
    | some w => if t - w.host_ts < t - c.host_ts then some w else some c

/-- Modelled from the spec: one Pairer transition.  TX: sweep expired
entries (counting them) and append the new pending entry.  RX: pair
with the best qualifying candidate and remove it, else count the RX as
unmatched.  RANGE and HEARTBEAT never touch the pending set or links
(RANGE fallback emits a separate marker, not a `PairedLink`). -/
def pairerStep (hz : Int) (s : PairerState) (e : InEvent) : PairerState :=
  match e.kind with
  | EKind.TX =>
    let kept := s.pending.filter fun p => decide (e.host_ts ≤ p.host_ts + hz)
    { pending := kept ++ [⟨e.role, e.host_ts, s.next_seq⟩],
      links := s.links,
      next_seq := s.next_seq + 1,
      unpaired_tx := s.unpaired_tx + (s.pending.length - kept.length),
      unmatched_rx := s.unmatched_rx }
  | EKind.RX =>
    match pickMin e.host_ts (s.pending.filter (qualifies hz e.host_ts e.role)) with
    | none =>
      { s with next_seq := s.next_seq + 1, unmatched_rx := s.unmatched_rx + 1 }
    | some w =>
      { pending := s.pending.erase w,
        links := s.links ++ [⟨w, e.role, e.host_ts, e.host_ts - w.host_ts⟩],
        next_seq := s.next_seq + 1,
        unpaired_tx := s.unpaired_tx,
        unmatched_rx := s.unmatched_rx }
  | _ => { s with next_seq := s.next_seq + 1 }

/-- The Pairer's initial state. -/
def pairer0 : PairerState := ⟨[], [], 0, 0, 0⟩

/-- Run the Pairer over an ingested event stream. -/
def runPairer (hz : Int) (evs : List InEvent) : PairerState :=
  evs.foldl (pairerStep hz) pairer0

theorem pickMin_isSome (t : Int) (c : PendingTX) (cs : List PendingTX) :
    ∃ w, pickMin t (c :: cs) = some w := by
  rw [pickMin]
  cases pickMin t cs with
  | none => exact ⟨c, rfl⟩
  | some w' =>
    by_cases hlt : t - w'.host_ts < t - c.host_ts
    · exact ⟨w', if_pos hlt⟩
    · exact ⟨c, if_neg hlt⟩

theorem pickMin_none {t : Int} {l : List PendingTX} (h : pickMin t l = none) :
    l = [] := by
  cases l with
  | nil => rfl
  | cons d ds =>
    obtain ⟨u, hu⟩ := pickMin_isSome t d ds
    rw [h] at hu
    simp at hu

theorem pickMin_mem {t : Int} :
    ∀ {l : List PendingTX} {w}, pickMin t l = some w → w ∈ l := by
  intro l
  induction l with
  | nil =>
    intro w h
    simp [pickMin] at h
  | cons c cs ih =>
    intro w h
    rw [pickMin] at h
    cases hcs : pickMin t cs with
    | none =>
      rw [hcs] at h
      simp at h
      simp [h]
    | some w' =>
      rw [hcs] at h
      simp only at h
      by_cases hlt : t - w'.host_ts < t - c.host_ts
      · rw [if_pos hlt] at h
        simp at h
        subst h
        exact List.mem_cons_of_mem _ (ih hcs)
      · rw [if_neg hlt] at h
        simp at h
        simp [h]

theorem pickMin_min {t : Int} :
    ∀ {l : List PendingTX} {w}, pickMin t l = some w →
      ∀ c ∈ l, t - w.host_ts ≤ t - c.host_ts := by
  intro l
  induction l with
  | nil =>
    intro w h
    simp [pickMin] at h
  | cons c cs ih =>
    intro w h
    rw [pickMin] at h
    cases hcs : pickMin t cs with
    | none =>
      have hnil := pickMin_none hcs
      rw [hcs] at h
      simp at h
      subst h
      subst hnil
      intro c' hc'
      simp at hc'
      subst hc'
      exact le_refl _
    | some w' =>
      rw [hcs] at h
      simp only at h
      by_cases hlt : t - w'.host_ts < t - c.host_ts
      · rw [if_pos hlt] at h
        simp at h
        subst h
        intro c' hc'
        rcases List.mem_cons.mp hc' with rfl | hmem
        · exact le_of_lt hlt
        · exact ih hcs c' hmem
      · rw [if_neg hlt] at h
        simp at h
        subst h
        intro c' hc'
        rcases List.mem_cons.mp hc' with rfl | hmem
        · exact le_refl _
        · exact le_trans (not_lt.mp hlt) (ih hcs c' hmem)

theorem pickMin_tie {t : Int} :
    ∀ {l : List PendingTX} {w}, l.Pairwise (fun a b => a.seq < b.seq) →
      pickMin t l = some w →
      ∀ c ∈ l, t - c.host_ts = t - w.host_ts → w.seq ≤ c.seq := by
  intro l
  induction l with
  | nil =>
    intro w _ h
    simp [pickMin] at h
  | cons c cs ih =>
    intro w hsort h
    obtain ⟨hc, hcs_sort⟩ := List.pairwise_cons.mp hsort
    rw [pickMin] at h
    cases hcs : pickMin t cs with
    | none =>
      rw [hcs] at h
      simp at h
      subst h
      intro c' hc' _
      rcases List.mem_cons.mp hc' with rfl | hmem
      · exact le_refl _
      · exact le_of_lt (hc c' hmem)
    | some w' =>
      rw [hcs] at h
      simp only at h
      by_cases hlt : t - w'.host_ts < t - c.host_ts
      · rw [if_pos hlt] at h
        simp at h
        subst h
        intro c' hc' heq
        rcases List.mem_cons.mp hc' with rfl | hmem
        · omega
        · exact ih hcs_sort hcs c' hmem heq
      · rw [if_neg hlt] at h
        simp at h
        subst h
        intro c' hc' _
        rcases List.mem_cons.mp hc' with rfl | hmem
        · exact le_refl _
        · exact le_of_lt (hc c' hmem)

theorem pairerStep_links_ext (hz : Int) (s : PairerState) (e : InEvent) :
    ∃ nl, (pairerStep hz s e).links = s.links ++ nl := by
  rcases e with ⟨r, k, ts⟩
  cases k with
  | TX => exact ⟨[], by simp [pairerStep]⟩
  | RX =>
    cases hpk : pickMin ts (s.pending.filter (qualifies hz ts r)) with
    | none => exact ⟨[], by simp [pairerStep, hpk]⟩
    | some w => exact ⟨[⟨w, r, ts, ts - w.host_ts⟩], by simp [pairerStep, hpk]⟩
  | RANGE => exact ⟨[], by simp [pairerStep]⟩
  | HEARTBEAT => exact ⟨[], by simp [pairerStep]⟩

theorem pairer_links_inv (hz : Int) (evs : List InEvent) :
    ∀ s : PairerState,
      (∀ lk ∈ s.links, 0 ≤ lk.latency ∧ lk.latency ≤ hz ∧
        lk.latency = lk.rx_ts - lk.tx.host_ts) →
      ∀ lk ∈ (evs.foldl (pairerStep hz) s).links,
        0 ≤ lk.latency ∧ lk.latency ≤ hz ∧
        lk.latency = lk.rx_ts - lk.tx.host_ts := by
  induction evs with
  | nil =>
    intro s hs
    simpa using hs
  | cons e rest ih =>
    intro s hs
    rw [List.foldl_cons]
    apply ih
    intro lk hlk
    rcases e with ⟨r, k, ts⟩
    cases k with
    | TX =>
      simp only [pairerStep] at hlk
      exact hs lk hlk
    | RX =>
      cases hpk : pickMin ts (s.pending.filter (qualifies hz ts r)) with
      | none =>
        simp only [pairerStep, hpk] at hlk
        exact hs lk hlk
      | some w =>
        simp only [pairerStep, hpk] at hlk
        rcases List.mem_append.mp hlk with hold | hnew
        · exact hs lk hold
        · have hwf := pickMin_mem hpk
          obtain ⟨_, hq⟩ := List.mem_filter.mp hwf
          simp only [qualifies, Bool.and_eq_true, decide_eq_true_eq] at hq
          simp at hnew
          subst hnew
          refine ⟨hq.1.2, hq.2, rfl⟩
    | RANGE =>
      simp only [pairerStep] at hlk
      exact hs lk hlk
    | HEARTBEAT =>
      simp only [pairerStep] at hlk
      exact hs lk hlk

/-- C4: every `PairedLink` the Pairer ever produces satisfies
`latency = rx.host_timestamp - tx.host_timestamp` with
`0 ≤ latency ≤ horizon`, on every input event stream; and links are
immutable once created — processing a further event only ever appends
to the link list, never altering an existing link. -/
theorem paired_link_latency_within_horizon (hz : Int) (evs : List InEvent)
    (lk : PairedLink) (hmem : lk ∈ (runPairer hz evs).links) :
    (0 ≤ lk.latency ∧ lk.latency ≤ hz ∧
      lk.latency = lk.rx_ts - lk.tx.host_ts) ∧
    ∀ pre e, ∃ newLinks,
      (runPairer hz (pre ++ [e])).links = (runPairer hz pre).links ++ newLinks := by
  constructor
  · exact pairer_links_inv hz evs pairer0 (by simp [pairer0]) lk hmem
  · intro pre e
    rw [runPairer, List.foldl_append]
    exact pairerStep_links_ext hz (runPairer hz pre) e

/-- Specification scenario 1: TAG TX at 0 ms, ANCHOR RX at 50 ms. -/
def scenario1 : List InEvent := [⟨Role.TAG, EKind.TX, 0⟩, ⟨Role.ANCHOR, EKind.RX, 50⟩]

/-- The link produced by scenario 1: latency 50 ms. -/
def link1 : PairedLink := ⟨⟨Role.TAG, 0, 0⟩, Role.ANCHOR, 50, 50⟩

/-- Witness for C4 on scenario 1 with horizon 300 ms. -/
theorem paired_link_latency_within_horizon_w :
    (0 ≤ link1.latency ∧ link1.latency ≤ 300 ∧
      link1.latency = link1.rx_ts - link1.tx.host_ts) ∧
    ∀ pre e, ∃ newLinks,
      (runPairer 300 (pre ++ [e])).links = (runPairer 300 pre).links ++ newLinks :=
  paired_link_latency_within_horizon 300 scenario1 link1 (by decide)

/-- C5: when an RX arrives and pending TX entries of the opposite role
qualify (`0 ≤ rx.host_ts - tx.host_ts ≤ horizon`), the Pairer pairs the
RX with the qualifying candidate of smallest latency, breaking latency
ties by earliest enqueue order, removes exactly that winner from the
pending set (every other entry survives), and appends the corresponding
link. -/
theorem rx_pairs_nearest_pending_tx (hz t : Int) (r : Role) (s : PairerState)
    (w : PendingTX)
    (hsorted : s.pending.Pairwise (fun a b => a.seq < b.seq))
    (hpick : pickMin t (s.pending.filter (qualifies hz t r)) = some w) :
    w ∈ s.pending ∧ qualifies hz t r w = true ∧
    (∀ c ∈ s.pending, qualifies hz t r c = true →
      t - w.host_ts ≤ t - c.host_ts) ∧
    (∀ c ∈ s.pending, qualifies hz t r c = true →
      t - c.host_ts = t - w.host_ts → w.seq ≤ c.seq) ∧
    (pairerStep hz s ⟨r, EKind.RX, t⟩).pending = s.pending.erase w ∧
    (pairerStep hz s ⟨r, EKind.RX, t⟩).links =
      s.links ++ [⟨w, r, t, t - w.host_ts⟩] ∧
    (s.pending.erase w).length + 1 = s.pending.length ∧
    (∀ c ∈ s.pending, c ≠ w → c ∈ s.pending.erase w) := by
  have hwf : w ∈ s.pending.filter (qualifies hz t r) := pickMin_mem hpick
  obtain ⟨hwp, hwq⟩ := List.mem_filter.mp hwf
  have hsf : (s.pending.filter (qualifies hz t r)).Pairwise
      (fun a b => a.seq < b.seq) := hsorted.filter _
  refine ⟨hwp, hwq, ?_, ?_, ?_, ?_, ?_, ?_⟩
  · intro c hc hq
    exact pickMin_min hpick c (List.mem_filter.mpr ⟨hc, hq⟩)
  · intro c hc hq heq
    exact pickMin_tie hsf hpick c (List.mem_filter.mpr ⟨hc, hq⟩) heq
  · simp [pairerStep, hpick]
  · simp [pairerStep, hpick]
  · have h1 := List.length_erase_of_mem hwp
    have h2 : 0 < s.pending.length := List.length_pos.mpr (by
      intro hnil
      rw [hnil] at hwp
      simp at hwp)
    omega
  · intro c hc hcw
    exact (List.mem_erase_of_ne hcw).mpr hc

/-- Specification scenario 3's pending set: TAG TX entries enqueued at
0 ms (seq 0) and 10 ms (seq 1). -/
def pend3 : List PendingTX := [⟨Role.TAG, 0, 0⟩, ⟨Role.TAG, 10, 1⟩]

/-- The Pairer state holding scenario 3's pending set. -/
def state3 : PairerState := ⟨pend3, [], 2, 0, 0⟩

/-- The expected winner: the later TX, at 10 ms. -/
def win3 : PendingTX := ⟨Role.TAG, 10, 1⟩

/-- Witness for C5 on scenario 3: ANCHOR RX at 15 ms under horizon
300 ms pairs with the 10 ms TX (latency 5 ms), not the earlier one. -/
theorem rx_pairs_nearest_pending_tx_w :
    win3 ∈ state3.pending ∧ qualifies 300 15 Role.ANCHOR win3 = true ∧
    (∀ c ∈ state3.pending, qualifies 300 15 Role.ANCHOR c = true →
      15 - win3.host_ts ≤ 15 - c.host_ts) ∧
    (∀ c ∈ state3.pending, qualifies 300 15 Role.ANCHOR c = true →
      15 - c.host_ts = 15 - win3.host_ts → win3.seq ≤ c.seq) ∧
    (pairerStep 300 state3 ⟨Role.ANCHOR, EKind.RX, 15⟩).pending =
      state3.pending.erase win3 ∧
    (pairerStep 300 state3 ⟨Role.ANCHOR, EKind.RX, 15⟩).links =
      state3.links ++ [⟨win3, Role.ANCHOR, 15, 15 - win3.host_ts⟩] ∧
    (state3.pending.erase win3).length + 1 = state3.pending.length ∧
    (∀ c ∈ state3.pending, c ≠ win3 → c ∈ state3.pending.erase win3) :=
  rx_pairs_nearest_pending_tx 300 15 Role.ANCHOR state3 win3 (by decide) (by decide)

/-!
## AES-GCM framing of the encrypted-tag example

`aesGcmEncrypt` / `aesGcmDecrypt` in the encrypted-tag sketch wrap
`mbedtls_gcm_crypt_and_tag` / `mbedtls_gcm_auth_decrypt` with a 16-byte
AES-128 key, a 12-byte IV, no AAD and a 16-byte tag.  mbedTLS implements
NIST SP 800-38D GCM: with a 12-byte IV the pre-counter block is
`J0 = IV ‖ 0x00000001`, the keystream blocks are `E_K(inc32^i(J0))`,
the ciphertext is the plaintext XORed with the keystream, and the tag is
`E_K(J0) ⊕ GHASH_H(C ‖ len)` with `H = E_K(0^128)`.  The AES block
cipher itself lives inside mbedTLS, outside this repository; it enters
the model as the function parameter `aes` (mapping a key and a 16-byte
block to a 16-byte block), which the round-trip property does not
depend on.  `auth_decrypt` recomputes the tag, compares, and on
mismatch returns `MBEDTLS_ERR_GCM_AUTH_FAILED` (-0x0012) with the
output buffer zeroised. -/

/-- Big-endian byte-list to natural number. -/
def beBytesToNat (l : List Nat) : Nat := l.foldl (fun a b => a * 256 + b) 0

/-- `k`-byte big-endian rendering of `n`. -/
def natToBeBytes : Nat → Nat → List Nat
  | 0, _ => []
  | k + 1, n => natToBeBytes k (n / 256) ++ [n % 256]

/-- One step of the GF(2^128) multiply: shift right, conditionally
reduce by the GCM polynomial `R = 0xe1 ‖ 0^120`. -/
def gfStep (v : Nat) : Nat :=
  if v % 2 = 1 then v / 2 ^^^ 225 <<< 120 else v / 2

/-- Bitwise GF(2^128) product accumulator over the 128 bits of `x`,
most significant first. -/
def gmulAux : Nat → Nat → Nat → Nat → Nat
  | 0, _, _, z => z
  | i + 1, x, v, z =>
    gmulAux i (x * 2 % 2 ^ 128) (gfStep v) (if x / 2 ^ 127 % 2 = 1 then z ^^^ v else z)

/-- GF(2^128) product `x • y` in GCM's bit order. -/
def gmul (x y : Nat) : Nat := gmulAux 128 x y 0

/-- GHASH over a block sequence with hash subkey `h`. -/
def ghashBlocks (h : Nat) (blocks : List (List Nat)) : Nat :=
  blocks.foldl (fun y b => gmul (y ^^^ beBytesToNat b) h) 0

/-- Split into 16-byte blocks, zero-padding the last (fuelled). -/
def chunk16Aux : Nat → List Nat → List (List Nat)
  | 0, _ => []
  | fuel + 1, l =>
    if l.length = 0 then []
    else if l.length ≤ 16 then [l ++ List.replicate (16 - l.length) 0]
    else l.take 16 :: chunk16Aux fuel (l.drop 16)

/-- Split into 16-byte blocks, zero-padding the last. -/
def chunk16 (l : List Nat) : List (List Nat) := chunk16Aux (l.length + 1) l

/-- `inc32`: increment the low 32 bits of a counter block. -/
def inc32 (b : List Nat) : List Nat :=
  b.take 12 ++ natToBeBytes 4 ((beBytesToNat (b.drop 12) + 1) % 2 ^ 32)

/-- The CTR keystream: `E_K(inc32(cb)) ‖ E_K(inc32²(cb)) ‖ …`. -/
def ksBlocks (aes : List Nat → List Nat → List Nat) (key : List Nat) :
    List Nat → Nat → List Nat
  | _, 0 => []
  | cb, n + 1 => aes key (inc32 cb) ++ ksBlocks aes key (inc32 cb) n

/-- GCM's CTR transform (used identically for encryption and
decryption): XOR the input with the keystream derived from `J0`. -/
def gcmCrypt (aes : List Nat → List Nat → List Nat) (key iv input : List Nat) :
    List Nat :=
  List.zipWith Nat.xor input
    (ksBlocks aes key (iv ++ [0, 0, 0, 1]) ((input.length + 15) / 16))

/-- The 16-byte authentication tag over a ciphertext. -/
def gcmTag (aes : List Nat → List Nat → List Nat) (key iv ct : List Nat) :
    List Nat :=
  List.zipWith Nat.xor (aes key (iv ++ [0, 0, 0, 1]))
    (natToBeBytes 16 (ghashBlocks (beBytesToNat (aes key (List.replicate 16 0)))
      (chunk16 ct ++ [natToBeBytes 8 0 ++ natToBeBytes 8 (8 * ct.length)])))

/-- `aesGcmEncrypt` of the encrypted-tag sketch: returns the mbedTLS
status (0 = success under the sketch's fixed parameter sizes), the
ciphertext and the 16-byte tag. -/
def aesGcmEncrypt (aes : List Nat → List Nat → List Nat)
    (key iv pt : List Nat) : Int × List Nat × List Nat :=
  (0, gcmCrypt aes key iv pt, gcmTag aes key iv (gcmCrypt aes key iv pt))

/-- `aesGcmDecrypt` of the encrypted-tag sketch: recompute the tag over
the ciphertext, compare, and either decrypt (status 0) or fail with
`MBEDTLS_ERR_GCM_AUTH_FAILED` and a zeroised output buffer. -/
def aesGcmDecrypt (aes : List Nat → List Nat → List Nat)
    (key iv tag ct : List Nat) : Int × List Nat :=
  if gcmTag aes key iv ct = tag then (0, gcmCrypt aes key iv ct)
  else (-18, List.replicate ct.length 0)

theorem natToBeBytes_length : ∀ k n, (natToBeBytes k n).length = k := by
  intro k
  induction k with
  | zero => intro n; rfl
  | succ k ih =>
    intro n
    simp [natToBeBytes, ih]

theorem ksBlocks_length (aes : List Nat → List Nat → List Nat) (key : List Nat)
    (haes : ∀ k b, (aes k b).length = 16) :
    ∀ (n : Nat) (cb : List Nat), (ksBlocks aes key cb n).length = 16 * n := by
  intro n
  induction n with
  | zero => intro cb; rfl
  | succ n ih =>
    intro cb
    simp [ksBlocks, haes, ih]
    ring

theorem zipWith_xor_invol (pt : List Nat) : ∀ ks : List Nat,
    pt.length ≤ ks.length →
    List.zipWith Nat.xor (List.zipWith Nat.xor pt ks) ks = pt := by
  induction pt with
  | nil =>
    intro ks _
    simp
  | cons a as ih =>
    intro ks h
    cases ks with
    | nil => simp at h
    | cons b bs =>
      simp only [List.zipWith, List.cons.injEq]
      constructor
      · show a ^^^ b ^^^ b = a
        rw [Nat.xor_assoc, Nat.xor_self, Nat.xor_zero]
      · exact ih bs (by simpa using h)

/-- C9: AES-GCM round-trip.  For every block cipher (in particular
mbedTLS's AES-128), every 16-byte key, 12-byte IV and plaintext of at
most 128 bytes, `aesGcmEncrypt` succeeds (status 0) with a ciphertext
of the plaintext's length and a 16-byte tag, and `aesGcmDecrypt` on the
same key, IV and tag returns 0 and reconstructs the plaintext byte for
byte. -/
theorem aes_gcm_roundtrip (aes : List Nat → List Nat → List Nat)
    (key iv pt : List Nat) (haes : ∀ k b, (aes k b).length = 16)
    (hkey : key.length = 16) (hiv : iv.length = 12) (hpt : pt.length ≤ 128) :
    (aesGcmEncrypt aes key iv pt).1 = 0 ∧
    (aesGcmEncrypt aes key iv pt).2.1.length = pt.length ∧
    (aesGcmEncrypt aes key iv pt).2.2.length = 16 ∧
    aesGcmDecrypt aes key iv (aesGcmEncrypt aes key iv pt).2.2
      (aesGcmEncrypt aes key iv pt).2.1 = (0, pt) := by
  have hks : ∀ l : List Nat,
      (ksBlocks aes key (iv ++ [0, 0, 0, 1]) ((l.length + 15) / 16)).length =
        16 * ((l.length + 15) / 16) := fun l => ksBlocks_length aes key haes _ _
  have hlen_ct : (gcmCrypt aes key iv pt).length = pt.length := by
    simp only [gcmCrypt, List.length_zipWith, hks]
    omega
  refine ⟨rfl, hlen_ct, ?_, ?_⟩
  · simp [aesGcmEncrypt, gcmTag, List.length_zipWith, haes,
      natToBeBytes_length]
  · simp only [aesGcmEncrypt]
    rw [aesGcmDecrypt, if_pos rfl]
    have hback : gcmCrypt aes key iv (gcmCrypt aes key iv pt) = pt := by
      rw [gcmCrypt, hlen_ct, gcmCrypt]
      apply zipWith_xor_invol
      rw [ksBlocks_length aes key haes]
      omega
    rw [hback]

/-- The trivial block cipher used by the witness (the round-trip holds
for every cipher, AES included). -/
def aes0 : List Nat → List Nat → List Nat := fun _ _ => List.replicate 16 0

/-- Witness for C9 at a concrete key, IV and 3-byte plaintext. -/
theorem aes_gcm_roundtrip_w :
    (aesGcmEncrypt aes0 (List.replicate 16 0) (List.replicate 12 0) [1, 2, 3]).1 = 0 ∧
    (aesGcmEncrypt aes0 (List.replicate 16 0) (List.replicate 12 0)
      [1, 2, 3]).2.1.length = ([1, 2, 3] : List Nat).length ∧
    (aesGcmEncrypt aes0 (List.replicate 16 0) (List.replicate 12 0)
      [1, 2, 3]).2.2.length = 16 ∧
    aesGcmDecrypt aes0 (List.replicate 16 0) (List.replicate 12 0)
      (aesGcmEncrypt aes0 (List.replicate 16 0) (List.replicate 12 0) [1, 2, 3]).2.2
      (aesGcmEncrypt aes0 (List.replicate 16 0) (List.replicate 12 0) [1, 2, 3]).2.1
      = (0, [1, 2, 3]) :=
  aes_gcm_roundtrip aes0 (List.replicate 16 0) (List.replicate 12 0) [1, 2, 3]
    (fun _ _ => rfl) (by decide) (by decide) (by decide)
